import Mathlib

/-!
Verification development for the retracesoftware utils native extension.

Each component the claims touch is shallowly embedded from the C++ source:
object identities are naturals (standing for the raw pointer values the code
stores), machine integers are naturals/integers with explicit `% 2^64`, and
fallible paths return explicit result types.
-/

namespace RetraceUtils

/-! ### Stable set (src/src/wrappedmember.cpp)

The stable set keeps the host set's storage (`live`, modelled as a `Finset`)
plus an append-only order log of raw identity values (`order`).  A live
pointer is word-aligned, so its low bit is clear; the log marks a deletion by
appending `ptr + 1` (the delete flag).  Elements are therefore modelled as
even, nonzero naturals. -/

def is_delete (obj : Nat) : Bool := obj % 2 = 1

def remove_delete_flag (obj : Nat) : Nat := obj - 1

def add_delete_flag (obj : Nat) : Nat := obj + 1

/-- The `clean` loop of the source walks the order log from the end, keeping a
set of pending deletes: a tombstone is zeroed and registers its target; the
most recent matching live entry before it is zeroed and consumes the pending
delete.  `cleanRev` processes the reversed log front-to-back, which is the
same traversal. -/
def cleanRev : List Nat → Finset Nat → List Nat
  | [], _ => []
  | o :: rest, deletes =>
    if is_delete o then
      0 :: cleanRev rest (insert (remove_delete_flag o) deletes)
    else if o ∈ deletes then
      0 :: cleanRev rest (deletes.erase o)
    else
      o :: cleanRev rest deletes

def clean (order : List Nat) : List Nat :=
  (cleanRev order.reverse ∅).reverse

/-- `remove_value(order, 0)` : drop the zeroed-out entries. -/
def remove_value (order : List Nat) : List Nat :=
  order.filter (fun o => o ≠ 0)

def remove_deletes (order : List Nat) : List Nat :=
  remove_value (clean order)

structure SS where
  live : Finset Nat
  order : List Nat
deriving DecidableEq

def SS.empty : SS := ⟨∅, []⟩

def SS.size (s : SS) : Nat := s.live.card

/-- The `remove_deletes()` method: compact only when the log is longer than
the live element count. -/
def SS.removeDeletesM (s : SS) : SS :=
  if s.order.length > s.size then { s with order := remove_deletes s.order } else s

/-- `StableSet::add`: opportunistically compact, then insert into the host
set; append to the log only when the size actually grew. -/
def SS.add (s : SS) (key : Nat) : SS :=
  let s := if s.order.length * 2 > s.size then { s with order := remove_deletes s.order } else s
  if key ∈ s.live then s
  else { live := insert key s.live, order := s.order ++ [key] }

/-- `StableSet::discard`: on a hit, either delete the entry in place (short,
clean log) or append a tombstone; returns whether the key was present. -/
def SS.discard (s : SS) (key : Nat) : SS × Bool :=
  if key ∈ s.live then
    let live' := s.live.erase key
    let order' :=
      if s.order.length < 8 ∧ s.order.length = live'.card + 1 then s.order.erase key
      else s.order ++ [add_delete_flag key]
    ({ live := live', order := order' }, true)
  else (s, false)

/-- The Python-level `remove` method (`py_remove`) delegates to `discard` and
reports success for both the present and the absent case (the KeyError in the
source is commented out). -/
inductive PyResult (α : Type) where
  | ok (a : α)
  | raised
deriving DecidableEq

def SS.py_remove (s : SS) (key : Nat) : PyResult SS :=
  .ok (s.discard key).1

inductive PopRes where
  | keyError
  | syncError
  | fuelOut
  | ok (x : Nat) (s : SS)
deriving DecidableEq

/-- `StableSet::pop`, totalised with fuel: the source recurses after
compacting whenever the last log entry is a tombstone.  `fuelOut` marks the
(unreachable under the state invariant) case where the source would loop. -/
def SS.popFuel : Nat → SS → PopRes
  | 0, _ => .fuelOut
  | fuel + 1, s =>
    if s.size = 0 then .keyError
    else
      match s.order.getLast? with
      | none => .syncError
      | some last =>
        if is_delete last then SS.popFuel fuel s.removeDeletesM
        else if last ∈ s.live then
          .ok last { live := s.live.erase last, order := s.order.dropLast }
        else .syncError

def SS.pop (s : SS) : PopRes := SS.popFuel (s.order.length + 1) s

/-- `StableSet::iter` first runs the `remove_deletes()` method, then the
iterator yields the raw log entries in order. -/
def SS.iterList (s : SS) : List Nat := s.removeDeletesM.order

/-- `StableSet_GetItem`: compact, then bounds-check `index` against the log.
The source accepts `0 ≤ index ≤ order.size()`; at `index = order.size()` the
vector read is past the end, modelled by the `none` of `List.get?`. -/
inductive GetItemOut where
  | valueError
  | entry (v : Option Nat)
deriving DecidableEq

def StableSet_GetItem (s : SS) (index : Int) : GetItemOut :=
  let s := s.removeDeletesM
  if index < 0 ∨ index > (s.order.length : Int) then .valueError
  else .entry (s.order.get? index.toNat)

/-! Set algebra helpers used by the `&` operator on stable frozensets. -/

/-- `copy_to_mutable` calls `StableSet_Type.tp_new` with the source set as
argument.  `tp_new` walks to the host `set` type's `tp_new`, which allocates
an empty set and ignores the arguments (the host fills mutable sets in
`tp_init`, which is never invoked here), so the "copy" is empty. -/
def SS.copy_to_mutable (_s : SS) : SS := SS.empty

/-- `difference_update` iterates the other collection and `remove`s (tolerant
discard) each element. -/
def SS.difference_update (s : SS) (other : SS) : SS :=
  other.iterList.foldl (fun acc x => (acc.discard x).1) s

/-- `frozenset_create` with an iterable: fresh empty set, then `add_all`. -/
def create_frozenset (iterable : SS) : SS :=
  iterable.iterList.foldl SS.add SS.empty

def mkStable (xs : List Nat) : SS := xs.foldl SS.add SS.empty

/-- Operands of the stable-set number slots: either a member of the stable
family or a foreign object (then the slot signals NotImplemented). -/
inductive SetOperand where
  | stable (s : SS)
  | foreign
deriving DecidableEq

inductive BinOpResult where
  | ok (s : SS)
  | notImplemented
deriving DecidableEq

/-- `StableSet::set_sub`: family check, copy, `difference_update`. -/
def set_sub : SetOperand → SetOperand → BinOpResult
  | .stable a, .stable b => .ok ((a.copy_to_mutable).difference_update b)
  | _, _ => .notImplemented

/-- `StableSet::frozenset_and` delegates to `set_sub` (the subtraction path)
and freezes the result. -/
def frozenset_and (a b : SetOperand) : BinOpResult :=
  match set_sub a b with
  | .ok s => .ok (create_frozenset s)
  | .notImplemented => .notImplemented

/-! Operation sequences over a stable set, and the order-log specification. -/

inductive SOp where
  | add (x : Nat)
  | remove (x : Nat)
  | pop
deriving DecidableEq

def SS.runOp (s : SS) : SOp → SS
  | .add x => s.add x
  | .remove x => (s.discard x).1
  | .pop =>
    match s.pop with
    | .ok _ s' => s'
    | _ => s

def runOps (ops : List SOp) : SS := ops.foldl SS.runOp SS.empty

/-- Specification-level ordered contents: the live elements in the order of
their most recent insertion (an `add` of an element already present is a
no-op; re-adding after removal appends at the end). -/
def specOp (l : List Nat) : SOp → List Nat
  | .add x => if x ∈ l then l else l ++ [x]
  | .remove x => l.erase x
  | .pop => l.dropLast

def specRun (ops : List SOp) : List Nat := ops.foldl specOp []

/-- Elements handed to the set are word-aligned non-null pointers: even and
nonzero. -/
def SOp.wf : SOp → Prop
  | .add x => x % 2 = 0 ∧ x ≠ 0
  | .remove x => x % 2 = 0 ∧ x ≠ 0
  | .pop => True

instance : DecidablePred SOp.wf := by
  intro op; cases op <;> simp [SOp.wf] <;> infer_instance

def WFOps (ops : List SOp) : Prop := ∀ op ∈ ops, op.wf

instance : DecidablePred WFOps := fun _ => List.decidableBAll _ _

/-- Refinement invariant tying a concrete stable-set state to its
specification-level ordered contents: the log splits into a duplicate-free
live block `c` followed by tombstones for a duplicate-free selection `ts` of
`c`'s elements, and `l` is `c` with the tombstoned elements dropped. -/
def Inv (s : SS) (l : List Nat) : Prop :=
  ∃ c ts : List Nat,
    s.order = c ++ ts.map add_delete_flag
    ∧ c.Nodup ∧ ts.Nodup
    ∧ (∀ x ∈ ts, x ∈ c)
    ∧ (∀ x ∈ c, x % 2 = 0 ∧ x ≠ 0)
    ∧ l = c.filter (fun x => x ∉ ts)
    ∧ s.live = l.toFinset

/-! ### Counter / BlockingCounter (src/unnamed/part_003)

`BlockingCounter::next(seq)` holds a mutex; with `seq` below the counter it
raises SIGTRAP (fatal, never returns); with `counter ≠ seq` it waits on the
condition variable for `counter == seq`; once equal it increments the uint64
counter, wakes every waiter and returns the new counter value. -/

inductive NextOutcome where
  | trap
  | blocked
  | served (ret : Nat) (counter' : Nat)
deriving DecidableEq

def BlockingCounter_nextStep (counter seq : Nat) : NextOutcome :=
  if seq < counter then .trap
  else if counter ≠ seq then .blocked
  else .served ((counter + 1) % 2 ^ 64) ((counter + 1) % 2 ^ 64)

/-- A sequence of completed (`served`) `next` calls, threading the counter. -/
inductive ServeTrace : Nat → List Nat → Nat → Prop where
  | nil (c : Nat) : ServeTrace c [] c
  | cons {c c' c'' r : Nat} {s : Nat} {rest : List Nat} :
      BlockingCounter_nextStep c s = .served r c' →
      ServeTrace c' rest c'' →
      ServeTrace c (s :: rest) c''

/-! ### PatchHash (src/cpp/patchhash.cpp) -/

/-- The 64-bit mixing finalizer `spread64` (uint64 arithmetic). -/
def spread64 (x : Nat) : Nat :=
  let x := x ^^^ (x >>> 30)
  let x := (x * 0xbf58476d1ce4e5b9) % 2 ^ 64
  let x := x ^^^ (x >>> 27)
  let x := (x * 0x94d049bb133111eb) % 2 ^ 64
  x ^^^ (x >>> 31)

/-- Reinterpret a uint64 bit pattern as the signed `Py_hash_t`. -/
def toSigned64 (x : Nat) : Int :=
  if x < 2 ^ 63 then (x : Int) else (x : Int) - 2 ^ 64

/-- `Counter::next`: return the current value, post-increment (uint64). -/
def Counter_Next (c : Nat) : Nat × Nat := (c, (c + 1) % 2 ^ 64)

/-- `PyLong_AsLongLong`, for in-range values; out-of-range conversion yields
the -1 error return (the pending overflow error itself is not modelled, so
theorems about the integer branch carry an in-range hypothesis). -/
def PyLong_AsLongLong (n : Int) : Int :=
  if n < -(2 ^ 63 : Int) ∨ (2 ^ 63 : Int) ≤ n then -1 else n

/-- The possible results of the user hash function, as `Hasher::hash`
classifies them: the none-value, an exact int, a Counter instance (its state
is the `Nat` threaded separately), or anything else. -/
inductive HashRet where
  | noneVal
  | intVal (n : Int)
  | counterVal
  | otherVal
deriving DecidableEq

inductive HashOut where
  | ok (h : Int) (c : Nat)
  | typeError
deriving DecidableEq

/-- `Hasher::hash`: interpret the user hash function's result.
`identityHash` stands for `_Py_HashPointer(self)`; `c` is the state of the
Counter returned in the Counter case. -/
def Hasher_hash (identityHash : Int) (ret : HashRet) (c : Nat) : HashOut :=
  match ret with
  | .noneVal => .ok identityHash c
  | .intVal n =>
    let hash := PyLong_AsLongLong n
    .ok (if hash = -1 then 1 else hash) c
  | .counterVal =>
    let (v, c') := Counter_Next c
    let hash := toSigned64 (spread64 v)
    .ok (if hash = -1 then 1 else hash) c'
  | .otherVal => .typeError

/-- Modelled from the spec's wording of the hash-result interpretation (§4.18),
to be compared with the embedded `Hasher_hash`: none-value → identity hash;
integer → used directly with the reserved sentinel (-1) remapped to the fixed
alternate (1); Counter → the mixing function applied to the counter's next
sequence value, with the same sentinel remap; anything else → type error. -/
def specHashInterp (identityHash : Int) (ret : HashRet) (c : Nat) : HashOut :=
  match ret with
  | .noneVal => .ok identityHash c
  | .intVal n => .ok (if n = -1 then 1 else n) c
  | .counterVal =>
    .ok (if toSigned64 (spread64 c) = -1 then 1 else toSigned64 (spread64 c)) ((c + 1) % 2 ^ 64)
  | .otherVal => .typeError

/-- The global object→hash cache (`map<PyObject *, Py_hash_t> hashes`),
as an association list keyed by object address. -/
abbrev HCache := List (Nat × Int)

def findCache : HCache → Nat → Option Int
  | [], _ => none
  | (k, v) :: rest, o => if k = o then some v else findCache rest o

def insertCache (c : HCache) (k : Nat) (v : Int) : HCache := (k, v) :: c

def eraseCache (c : HCache) (k : Nat) : HCache :=
  c.filter (fun p => p.1 ≠ k)

/-- The installed `tp_hash` trampoline (`retracesoftware::hashfunc`): return
the cached value if present; otherwise run the user hash function (an
arbitrary state transformer `user`, e.g. Counter-backed) and cache the result
unless it is the -1 error value. -/
def patched_hashfunc {σ : Type} (user : Nat → σ → Int × σ) (self : Nat)
    (us : σ) (cache : HCache) : Int × σ × HCache :=
  match findCache cache self with
  | some h => (h, us, cache)
  | none =>
    let (h, us') := user self us
    if h ≠ -1 then (h, us', insertCache cache self h) else (h, us', cache)

/-- The installed `tp_dealloc` trampoline: drop the object's cache entry
(then run the original deallocator, which does not touch the cache). -/
def patched_dealloc (self : Nat) (cache : HCache) : HCache :=
  eraseCache cache self

inductive HEvent where
  | hash (o : Nat)
  | dealloc (o : Nat)
deriving DecidableEq

/-- Run a sequence of hash/dealloc events against the patched type, logging
each hash call's returned value. -/
def runH {σ : Type} (user : Nat → σ → Int × σ) :
    List HEvent → σ → HCache → (σ × HCache) × List (Nat × Int)
  | [], us, cache => ((us, cache), [])
  | .hash o :: evs, us, cache =>
    let (h, us', cache') := patched_hashfunc user o us cache
    let (st, log) := runH user evs us' cache'
    (st, (o, h) :: log)
  | .dealloc o :: evs, us, cache => runH user evs us (patched_dealloc o cache)

/-- The user hash function of the claimed scenario: it returns a fresh
Counter-derived value on every call (the Counter branch of `Hasher_hash`). -/
def counterUserHash (_self : Nat) (c : Nat) : Int × Nat :=
  let (v, c') := Counter_Next c
  let hash := toSigned64 (spread64 v)
  ((if hash = -1 then 1 else hash), c')

/-! ### Gate / BoundGate (src/unnamed/part_010)

A Gate resolves its executor per thread: the per-thread dictionary entry if
present, else the construction-time default.  A process-wide one-slot cache
memoizes the last (thread, gate) resolution; with a single gate it is
modelled as `Option (thread, resolved executor)`.  Threads and executors are
identified by naturals. -/

structure GateState where
  dict : Nat → Option Nat
  dflt : Option Nat
  cache : Option (Nat × Option Nat)

/-- Dictionary lookup with fallback to the default executor. -/
def resolveDict (g : GateState) (t : Nat) : Option Nat :=
  match g.dict t with
  | some e => some e
  | none => g.dflt

/-- `Gate::load_cache`. -/
def load_cache (g : GateState) (t : Nat) : GateState :=
  { g with cache := some (t, resolveDict g t) }

/-- `Gate::executor`: hit the cache when it is for this thread (and gate),
else reload it. -/
def Gate_executor (g : GateState) (t : Nat) : Option Nat × GateState :=
  match g.cache with
  | some (ts, e) =>
    if ts = t then (e, g) else (resolveDict g t, load_cache g t)
  | none => (resolveDict g t, load_cache g t)

/-- `Gate::set_executor`: install or clear the calling thread's dictionary
entry and refresh the cache (a cleared override falls back to the default). -/
def Gate_set_executor (g : GateState) (t : Nat) (exec : Option Nat) : GateState :=
  match exec with
  | some e =>
    { dict := fun u => if u = t then some e else g.dict u
      dflt := g.dflt
      cache := some (t, some e) }
  | none =>
    { dict := fun u => if u = t then none else g.dict u
      dflt := g.dflt
      cache := some (t, g.dflt) }

/-- What a BoundGate call does: call the target directly, or call the
resolved executor with the target prepended to the arguments. -/
inductive CallAction where
  | direct (target : Nat) (args : List Nat)
  | viaExec (e : Nat) (target : Nat) (args : List Nat)

/-- `BoundGate::call`: resolve the gate's executor (same cache check as
`Gate::executor`); disabled → direct passthrough, otherwise
`executor(target, *args, **kwargs)` (both the offset-slot and the scratch
array paths produce that same call). -/
def BoundGate_call (g : GateState) (t : Nat) (target : Nat) (args : List Nat) :
    CallAction × GateState :=
  let (e, g') := Gate_executor g t
  match e with
  | none => (.direct target args, g')
  | some ex => (.viaExec ex target args, g')

/-- A freshly constructed `Gate()` with no default: no thread overrides, no
default executor, and the global cache not pointing at this gate. -/
def freshGate : GateState := { dict := fun _ => none, dflt := none, cache := none }

/-! ### Demultiplexer (src/cpp/demux.cpp)

`get(key)` over the revised Demultiplexer.  The source callable is modelled
as a queue of items; `key_function` maps items to keys; the bounded
condition-variable wait depends on other threads and wall-clock time, so its
outcome is an oracle input `waitFinds` (true = a matching lookahead arrived
before the timeout). -/

structure Demux where
  source : List Nat
  next : Option Nat
  pendingKeys : List Nat
  hasOnTimeout : Bool

/-- `ensure_next`: pull one item from the source when no lookahead is
cached; `none` models a failing source call. -/
def ensureNext (d : Demux) : Option Demux :=
  match d.next with
  | some _ => some d
  | none =>
    match d.source with
    | [] => none
    | i :: rest => some { d with next := some i, source := rest }

inductive GetRes where
  | item (i : Nat)
  | valueError
  | waited
  | timeoutHandler (key : Nat)
  | runtimeError
  | sourceFailed
deriving DecidableEq

/-- `Demultiplexer::get`: fast path consumes a matching lookahead; a key
already pending is a ValueError; otherwise wait — on success the (by then
matching) lookahead is consumed (`waited`; the item depends on the other
threads), on timeout call `on_timeout(self, key)` if configured, else raise
RuntimeError. -/
def demuxGet (keyFn : Nat → Nat) (d : Demux) (key : Nat) (waitFinds : Bool) :
    GetRes × Demux :=
  match ensureNext d with
  | none => (.sourceFailed, d)
  | some d' =>
    match d'.next with
    | none => (.sourceFailed, d')
    | some item =>
      -- test_pending: identity check of key against keyFn(item) first, with
      -- an equality fallback; over Nat keys both collapse to `=`
      if keyFn item = key then (.item item, { d' with next := none })
      else if key ∈ d'.pendingKeys then (.valueError, d')
      else if waitFinds then (.waited, { d' with next := none })
      else if d'.hasOnTimeout then (.timeoutHandler key, d')
      else (.runtimeError, d')

/-! ### Lemmas about the order-log compaction -/

lemma mem_foldl_insert (l : List Nat) (D : Finset Nat) (x : Nat) :
    x ∈ l.foldl (fun acc y => insert y acc) D ↔ x ∈ l ∨ x ∈ D := by
  induction l generalizing D with
  | nil => simp
  | cons a l ih =>
    simp only [List.foldl_cons, ih, Finset.mem_insert, List.mem_cons]
    tauto

lemma mem_foldr_insert (l : List Nat) (D : Finset Nat) (x : Nat) :
    x ∈ l.foldr (fun y acc => insert y acc) D ↔ x ∈ l ∨ x ∈ D := by
  induction l with
  | nil => simp
  | cons a l ih =>
    simp only [List.foldr_cons, Finset.mem_insert, ih, List.mem_cons]
    tauto

lemma cleanRev_tombstones (ts rest : List Nat) (D : Finset Nat)
    (h : ∀ x ∈ ts, x % 2 = 0) :
    cleanRev (ts.map add_delete_flag ++ rest) D
      = ts.map (fun _ => 0) ++ cleanRev rest (ts.foldl (fun acc y => insert y acc) D) := by
  induction ts generalizing D with
  | nil => simp
  | cons a ts ih =>
    have ha : a % 2 = 0 := h a (by simp)
    have hdel : is_delete (add_delete_flag a) = true := by
      simp [is_delete, add_delete_flag, Nat.add_mod, ha]
    have hflag : remove_delete_flag (add_delete_flag a) = a := by
      simp [remove_delete_flag, add_delete_flag]
    simp only [List.map_cons, List.cons_append, cleanRev, hdel, if_pos, hflag,
      List.foldl_cons, List.append_eq]
    rw [ih _ (fun x hx => h x (by simp [hx]))]

lemma cleanRev_live (c : List Nat) (D : Finset Nat) (hnd : c.Nodup)
    (h : ∀ x ∈ c, x % 2 = 0) :
    cleanRev c D = c.map (fun x => if x ∈ D then 0 else x) := by
  induction c generalizing D with
  | nil => simp [cleanRev]
  | cons a c ih =>
    have ha : is_delete a = false := by
      simp [is_delete, h a (by simp)]
    have hnd' : c.Nodup := hnd.of_cons
    have hnotmem : a ∉ c := by
      intro hc; exact (List.nodup_cons.mp hnd).1 hc
    have hrec : ∀ D', cleanRev c D' = c.map (fun x => if x ∈ D' then 0 else x) :=
      fun D' => ih D' hnd' (fun x hx => h x (by simp [hx]))
    by_cases hD : a ∈ D
    · rw [show cleanRev (a :: c) D = 0 :: cleanRev c (D.erase a) by
        simp [cleanRev, ha, hD]]
      rw [hrec, List.map_cons, if_pos hD]
      congr 1
      apply List.map_congr_left
      intro x hx
      have hxa : x ≠ a := fun hxa => hnotmem (hxa ▸ hx)
      simp [Finset.mem_erase, hxa]
    · rw [show cleanRev (a :: c) D = a :: cleanRev c D by simp [cleanRev, ha, hD]]
      rw [hrec, List.map_cons, if_neg hD]

lemma filter_map_zero (c : List Nat) (D : Finset Nat) (h0 : ∀ x ∈ c, x ≠ 0) :
    ((c.map (fun x => if x ∈ D then 0 else x)).filter (fun o => o ≠ 0))
      = c.filter (fun x => x ∉ D) := by
  induction c with
  | nil => simp
  | cons a c ih =>
    have ha : a ≠ 0 := h0 a (by simp)
    have hrec := ih (fun x hx => h0 x (by simp [hx]))
    by_cases hD : a ∈ D
    · simp only [List.map_cons, if_pos hD, List.filter_cons]
      simpa [hD] using hrec
    · simp only [List.map_cons, if_neg hD, List.filter_cons]
      simpa [hD, ha] using hrec

/-- Compacting a log that consists of a duplicate-free live block followed by
tombstones for some of its elements keeps exactly the non-tombstoned elements,
in order. -/
lemma remove_deletes_shape (c ts : List Nat) (hc : c.Nodup)
    (hpar : ∀ x ∈ c, x % 2 = 0 ∧ x ≠ 0) (hsub : ∀ x ∈ ts, x ∈ c) :
    remove_deletes (c ++ ts.map add_delete_flag) = c.filter (fun x => x ∉ ts) := by
  unfold remove_deletes clean remove_value
  rw [List.reverse_append, ← List.map_reverse,
    cleanRev_tombstones _ _ _ (fun x hx => (hpar x (hsub x (by simpa using hx))).1),
    cleanRev_live _ _ (List.nodup_reverse.mpr hc) (by
      intro x hx
      exact (hpar x (by simpa using hx)).1)]
  rw [List.reverse_append, ← List.map_reverse, List.reverse_reverse, ← List.map_reverse,
    List.reverse_reverse, List.filter_append]
  have hzeros : (List.filter (fun o => o ≠ 0) (ts.map fun _ => (0 : Nat))) = [] := by
    simp [List.filter_eq_nil_iff]
  rw [hzeros, List.append_nil]
  rw [filter_map_zero _ _ (fun x hx => (hpar x hx).2)]
  apply List.filter_congr
  intro x hx
  simp [mem_foldl_insert, mem_foldr_insert]

/-! ### The stable-set refinement invariant -/

lemma filter_not_mem_nil (c : List Nat) :
    c.filter (fun x => x ∉ ([] : List Nat)) = c := by
  simp

lemma length_filter_bool_split (p : Nat → Bool) (l : List Nat) :
    (l.filter p).length + (l.filter (fun x => !p x)).length = l.length := by
  induction l with
  | nil => simp
  | cons a l ih =>
    cases hp : p a <;> simp [List.filter_cons, hp, ← ih] <;> omega

lemma length_filter_mem (c ts : List Nat) (hc : c.Nodup) (hts : ts.Nodup)
    (hsub : ∀ x ∈ ts, x ∈ c) :
    (c.filter (fun x => x ∈ ts)).length = ts.length := by
  have hnd : (c.filter (fun x => x ∈ ts)).Nodup := hc.filter _
  have hset : (c.filter (fun x => x ∈ ts)).toFinset = ts.toFinset := by
    ext y
    simp only [List.mem_toFinset, List.mem_filter, decide_eq_true_eq]
    exact ⟨fun h => h.2, fun h => ⟨hsub y h, h⟩⟩
  calc (c.filter (fun x => x ∈ ts)).length
      = (c.filter (fun x => x ∈ ts)).toFinset.card := (List.toFinset_card_of_nodup hnd).symm
    _ = ts.toFinset.card := by rw [hset]
    _ = ts.length := List.toFinset_card_of_nodup hts

lemma length_filter_split (c ts : List Nat) (hc : c.Nodup) (hts : ts.Nodup)
    (hsub : ∀ x ∈ ts, x ∈ c) :
    (c.filter (fun x => x ∉ ts)).length + ts.length = c.length := by
  have h1 := length_filter_bool_split (fun x => decide (x ∈ ts)) c
  have h2 : (c.filter (fun x => !decide (x ∈ ts))) = c.filter (fun x => x ∉ ts) := by
    apply List.filter_congr
    intro y _
    simp
  rw [h2] at h1
  rw [← length_filter_mem c ts hc hts hsub]
  omega

lemma toFinset_erase_of_nodup {l : List Nat} (h : l.Nodup) (a : Nat) :
    (l.erase a).toFinset = l.toFinset.erase a := by
  ext x
  simp [List.mem_toFinset, Finset.mem_erase, h.mem_erase_iff]

lemma inv_remove_deletes {s : SS} {l : List Nat} (h : Inv s l) :
    remove_deletes s.order = l := by
  obtain ⟨c, ts, ho, hc, hts, hsub, hpar, hl, _⟩ := h
  rw [ho, remove_deletes_shape c ts hc hpar hsub, ← hl]

lemma inv_nodup {s : SS} {l : List Nat} (h : Inv s l) : l.Nodup := by
  obtain ⟨c, _, _, hc, _, _, _, hl, _⟩ := h
  exact hl ▸ hc.filter _

lemma inv_par {s : SS} {l : List Nat} (h : Inv s l) :
    ∀ x ∈ l, x % 2 = 0 ∧ x ≠ 0 := by
  obtain ⟨c, ts, _, _, _, _, hpar, hl, _⟩ := h
  intro x hx
  exact hpar x (List.mem_of_mem_filter (hl ▸ hx))

lemma inv_card {s : SS} {l : List Nat} (h : Inv s l) : s.live.card = l.length := by
  obtain ⟨c, _, _, _, _, _, _, _, hlive⟩ := h
  rw [hlive, List.toFinset_card_of_nodup (inv_nodup ⟨c, _, ‹_›, ‹_›, ‹_›, ‹_›, ‹_›, ‹_›, hlive⟩)]

lemma inv_mem {s : SS} {l : List Nat} (h : Inv s l) (x : Nat) :
    x ∈ s.live ↔ x ∈ l := by
  obtain ⟨_, _, _, _, _, _, _, _, hlive⟩ := h
  rw [hlive, List.mem_toFinset]

lemma inv_length_le {s : SS} {l : List Nat} (h : Inv s l) :
    l.length ≤ s.order.length := by
  obtain ⟨c, ts, ho, _, _, _, _, hl, _⟩ := h
  calc l.length ≤ c.length := hl ▸ List.length_filter_le _ _
    _ ≤ s.order.length := by rw [ho, List.length_append]; omega

lemma inv_clean_of_le {s : SS} {l : List Nat} (h : Inv s l)
    (hle : s.order.length ≤ l.length) : s.order = l := by
  obtain ⟨c, ts, ho, hc, hts, hsub, hpar, hl, hlive⟩ := h
  have hsplit := length_filter_split c ts hc hts hsub
  have hlen : s.order.length = c.length + ts.length := by
    rw [ho, List.length_append, List.length_map]
  have hts0 : ts.length = 0 := by
    have := hl ▸ hsplit
    omega
  have htsnil : ts = [] := List.length_eq_zero.mp hts0
  subst htsnil
  rw [ho, List.map_nil, List.append_nil, hl, filter_not_mem_nil]

lemma inv_clean_mk {live : Finset Nat} {l : List Nat} (hnd : l.Nodup)
    (hpar : ∀ x ∈ l, x % 2 = 0 ∧ x ≠ 0) (hlive : live = l.toFinset) :
    Inv ⟨live, l⟩ l :=
  ⟨l, [], by simp, hnd, by simp, by simp, hpar, (filter_not_mem_nil l).symm, hlive⟩

lemma add_inv {s : SS} {l : List Nat} (h : Inv s l) {x : Nat}
    (hx2 : x % 2 = 0) (hx0 : x ≠ 0) :
    Inv (s.add x) (specOp l (.add x)) := by
  have hnd := inv_nodup h
  have hparl := inv_par h
  have hlive : s.live = l.toFinset := by
    obtain ⟨_, _, _, _, _, _, _, _, hlive⟩ := h
    exact hlive
  have hstep :
      (if s.order.length * 2 > s.size then { s with order := remove_deletes s.order } else s)
        = ⟨s.live, l⟩ := by
    by_cases hcond : s.order.length * 2 > s.size
    · rw [if_pos hcond]
      cases s with
      | mk live order => simp only [SS.mk.injEq, true_and]; exact inv_remove_deletes h
    · rw [if_neg hcond]
      have h1 : l.length ≤ s.order.length := inv_length_le h
      have h2 : s.live.card = l.length := inv_card h
      have h3 : ¬s.order.length * 2 > s.live.card := hcond
      have hlen : s.order.length = 0 := by
        simp only [SS.size] at h3
        omega
      have hle : s.order.length ≤ l.length := by omega
      have := inv_clean_of_le h hle
      cases s with
      | mk live order => simp only [SS.mk.injEq, true_and]; exact this
  show Inv
    (let s' := if s.order.length * 2 > s.size then { s with order := remove_deletes s.order } else s
     if x ∈ s'.live then s'
     else { live := insert x s'.live, order := s'.order ++ [x] }) _
  rw [hstep]
  simp only
  by_cases hmem : x ∈ l
  · rw [if_pos (by rw [hlive, List.mem_toFinset]; exact hmem)]
    simp only [specOp, if_pos hmem]
    exact inv_clean_mk hnd hparl hlive
  · rw [if_neg (by rw [hlive, List.mem_toFinset]; exact hmem)]
    simp only [specOp, if_neg hmem]
    apply inv_clean_mk
    · rw [List.nodup_append]
      exact ⟨hnd, List.nodup_singleton x, by
        intro y hy hy'
        rw [List.mem_singleton] at hy'
        exact hmem (hy' ▸ hy)⟩
    · intro y hy
      rcases List.mem_append.mp hy with hy | hy
      · exact hparl y hy
      · rw [List.mem_singleton] at hy
        exact hy ▸ ⟨hx2, hx0⟩
    · ext y
      simp only [Finset.mem_insert, hlive, List.mem_toFinset, List.mem_append,
        List.mem_singleton]
      tauto

lemma discard_inv {s : SS} {l : List Nat} (h : Inv s l) (x : Nat) :
    (s.discard x).2 = decide (x ∈ l) ∧ Inv (s.discard x).1 (l.erase x) := by
  have hnd := inv_nodup h
  have hparl := inv_par h
  by_cases hmem : x ∈ l
  · have hlivemem : x ∈ s.live := (inv_mem h x).mpr hmem
    obtain ⟨c, ts, ho, hc, hts, hsub, hpar, hl, hlive⟩ := h
    have hInv : Inv s l := ⟨c, ts, ho, hc, hts, hsub, hpar, hl, hlive⟩
    have hxc : x ∈ c ∧ x ∉ ts := by
      have := hl ▸ hmem
      have h' := List.mem_filter.mp this
      exact ⟨h'.1, by simpa using h'.2⟩
    constructor
    · simp [SS.discard, hlivemem, hmem]
    · simp only [SS.discard, if_pos hlivemem]
      by_cases hcond : s.order.length < 8 ∧ s.order.length = (s.live.erase x).card + 1
      · rw [if_pos hcond]
        have hcard : (s.live.erase x).card = l.length - 1 := by
          rw [Finset.card_erase_of_mem hlivemem, inv_card hInv]
        have hlpos : 1 ≤ l.length := List.length_pos.mpr (List.ne_nil_of_mem hmem)
        have hle : s.order.length ≤ l.length := by
          rw [hcond.2, hcard]; omega
        have hclean := inv_clean_of_le hInv hle
        rw [hclean]
        exact inv_clean_mk (hnd.erase x)
          (fun y hy => hparl y (List.mem_of_mem_erase hy))
          (by rw [hlive, toFinset_erase_of_nodup hnd])
      · rw [if_neg hcond]
        refine ⟨c, ts ++ [x], ?_, hc, ?_, ?_, hpar, ?_, ?_⟩
        · rw [ho, List.map_append, List.map_cons, List.map_nil, List.append_assoc]
        · rw [List.nodup_append]
          exact ⟨hts, List.nodup_singleton x, by
            intro y hy hy'
            rw [List.mem_singleton] at hy'
            exact hxc.2 (hy' ▸ hy)⟩
        · intro y hy
          rcases List.mem_append.mp hy with hy | hy
          · exact hsub y hy
          · rw [List.mem_singleton] at hy
            exact hy ▸ hxc.1
        · rw [hnd.erase_eq_filter x]
          conv_lhs => rw [hl]
          rw [List.filter_filter]
          apply List.filter_congr
          intro y _
          simp only [List.mem_append, List.mem_singleton, not_or, bne, decide_not]
          cases hyts : decide (y ∈ ts) <;> cases hyx : decide (y = x) <;>
            simp_all [decide_eq_true_eq]
        · rw [hlive, toFinset_erase_of_nodup hnd]
  · have hlivemem : x ∉ s.live := fun hx => hmem ((inv_mem h x).mp hx)
    constructor
    · simp [SS.discard, hlivemem, hmem]
    · simp only [SS.discard, if_neg hlivemem]
      rw [List.erase_of_not_mem hmem]
      exact h

lemma pop_keyError {s : SS} {l : List Nat} (h : Inv s l) (hl : l = []) :
    s.pop = .keyError := by
  have hcard : s.size = 0 := by
    simp [SS.size, inv_card h, hl]
  simp [SS.pop, SS.popFuel, hcard]

lemma popFuel_clean (fuel : Nat) {live : Finset Nat} {l : List Nat} (hnd : l.Nodup)
    (hpar : ∀ x ∈ l, x % 2 = 0 ∧ x ≠ 0) (hlive : live = l.toFinset) (hne : l ≠ []) :
    SS.popFuel (fuel + 1) ⟨live, l⟩
      = .ok (l.getLast hne) ⟨live.erase (l.getLast hne), l.dropLast⟩ := by
  have hInv : Inv ⟨live, l⟩ l := inv_clean_mk hnd hpar hlive
  have hcard : (SS.mk live l).size ≠ 0 := by
    simp only [SS.size, inv_card hInv]
    exact fun h0 => hne (List.length_eq_zero.mp h0)
  have hlast : l.getLast? = some (l.getLast hne) := List.getLast?_eq_getLast l hne
  have hmeml : l.getLast hne ∈ l := List.getLast_mem hne
  have hdel : is_delete (l.getLast hne) = false := by
    simp [is_delete, (hpar _ hmeml).1]
  have hmem : l.getLast hne ∈ live := by
    rw [hlive, List.mem_toFinset]; exact hmeml
  simp [SS.popFuel, hcard, hlast, hdel, hmem]

lemma pop_ok {s : SS} {l : List Nat} (h : Inv s l) (hne : l ≠ []) :
    s.pop = .ok (l.getLast hne) ⟨s.live.erase (l.getLast hne), l.dropLast⟩ := by
  have hnd := inv_nodup h
  have hparl := inv_par h
  obtain ⟨c, ts, ho, hc, hts, hsub, hpar, hl, hlive⟩ := h
  have hInv : Inv s l := ⟨c, ts, ho, hc, hts, hsub, hpar, hl, hlive⟩
  cases hts_nil : ts with
  | nil =>
    subst hts_nil
    have horder : s.order = l := by
      rw [ho, List.map_nil, List.append_nil, hl, filter_not_mem_nil]
    have hs : s = ⟨s.live, l⟩ := by
      cases s with
      | mk live order => simpa using horder
    rw [SS.pop, hs]
    simp only
    exact popFuel_clean l.length hnd hparl hlive hne
  | cons t ts' =>
    subst hts_nil
    have hmapne : (t :: ts').map add_delete_flag ≠ [] := by simp
    have hlast : s.order.getLast? = ((t :: ts').map add_delete_flag).getLast? := by
      rw [ho]
      exact List.getLast?_append_of_ne_nil _ hmapne
    obtain ⟨last, hlastval⟩ : ∃ a, ((t :: ts').map add_delete_flag).getLast? = some a :=
      ⟨_, List.getLast?_eq_getLast _ hmapne⟩
    have hlastmem : last ∈ (t :: ts').map add_delete_flag := by
      obtain ⟨hne', heq⟩ := List.mem_getLast?_eq_getLast
        (l := (t :: ts').map add_delete_flag) (x := last)
        (by rw [Option.mem_def, hlastval])
      exact heq ▸ List.getLast_mem hne'
    obtain ⟨y, hy, hfy⟩ := List.mem_map.mp hlastmem
    have hydel : is_delete last = true := by
      have hy2 : y % 2 = 0 := (hpar y (hsub y hy)).1
      rw [← hfy]
      simp [is_delete, add_delete_flag, Nat.add_mod, hy2]
    have hcard : s.size ≠ 0 := by
      simp only [SS.size, inv_card hInv]
      exact fun h0 => hne (List.length_eq_zero.mp h0)
    have hcount := length_filter_split c (t :: ts') hc hts hsub
    have hlen : s.order.length = c.length + (t :: ts').length := by
      rw [ho, List.length_append, List.length_map]
    have hlenl : l.length + (t :: ts').length = c.length := by rw [hl]; exact hcount
    have hlengt : s.order.length > l.length := by
      simp only [List.length_cons] at hlen hlenl
      omega
    have hcompact : s.removeDeletesM = ⟨s.live, l⟩ := by
      unfold SS.removeDeletesM
      rw [if_pos (by simpa only [SS.size, inv_card hInv] using hlengt)]
      cases s with
      | mk live order => simpa using inv_remove_deletes hInv
    obtain ⟨m, hm⟩ : ∃ m, s.order.length = m + 1 := by
      have : 1 ≤ s.order.length := by omega
      exact ⟨s.order.length - 1, by omega⟩
    rw [SS.pop, hm]
    have hso : s.order.getLast? = some last := by rw [hlast]; exact hlastval
    have hstep : SS.popFuel (m + 1 + 1) s = SS.popFuel (m + 1) s.removeDeletesM := by
      simp [SS.popFuel, hcard, hso, hydel]
    rw [hstep, hcompact]
    exact popFuel_clean m hnd hparl hlive hne

lemma pop_result_inv {s : SS} {l : List Nat} (h : Inv s l) (hne : l ≠ []) :
    Inv ⟨s.live.erase (l.getLast hne), l.dropLast⟩ l.dropLast := by
  have hnd := inv_nodup h
  have hparl := inv_par h
  have hlive : s.live = l.toFinset := by
    obtain ⟨_, _, _, _, _, _, _, _, hlive⟩ := h
    exact hlive
  have hsplit : l.dropLast ++ [l.getLast hne] = l := List.dropLast_append_getLast hne
  have hlastnot : l.getLast hne ∉ l.dropLast := by
    intro hmem
    have hnd' : (l.dropLast ++ [l.getLast hne]).Nodup := by rw [hsplit]; exact hnd
    rw [List.nodup_append] at hnd'
    exact hnd'.2.2 hmem (List.mem_singleton.mpr rfl)
  apply inv_clean_mk
  · exact (List.dropLast_sublist l).nodup hnd
  · intro y hy
    exact hparl y ((List.dropLast_sublist l).mem hy)
  · ext y
    simp only [Finset.mem_erase, hlive, List.mem_toFinset]
    constructor
    · rintro ⟨hyne, hyl⟩
      rw [← hsplit, List.mem_append, List.mem_singleton] at hyl
      rcases hyl with hyl | hyl
      · exact hyl
      · exact absurd hyl hyne
    · intro hy
      refine ⟨fun heq => hlastnot (heq ▸ hy), ?_⟩
      rw [← hsplit, List.mem_append]
      exact Or.inl hy

lemma runOp_inv {s : SS} {l : List Nat} (h : Inv s l) {op : SOp} (hop : op.wf) :
    Inv (s.runOp op) (specOp l op) := by
  cases op with
  | add x => exact add_inv h hop.1 hop.2
  | remove x => exact (discard_inv h x).2
  | pop =>
    by_cases hl : l = []
    · have hpop := pop_keyError h hl
      simp only [SS.runOp, hpop, specOp]
      subst hl
      simpa using h
    · have hpop := pop_ok h hl
      simp only [SS.runOp, hpop, specOp]
      exact pop_result_inv h hl

lemma inv_empty : Inv SS.empty [] :=
  inv_clean_mk (by simp) (by simp) (by simp [SS.empty])

lemma runOps_inv_aux (ops : List SOp) {s : SS} {l : List Nat} (h : Inv s l)
    (hwf : ∀ op ∈ ops, op.wf) :
    Inv (ops.foldl SS.runOp s) (ops.foldl specOp l) := by
  induction ops generalizing s l with
  | nil => exact h
  | cons op ops ih =>
    simp only [List.foldl_cons]
    exact ih (runOp_inv h (hwf op (by simp))) (fun o ho => hwf o (by simp [ho]))

lemma inv_iterList {s : SS} {l : List Nat} (h : Inv s l) : s.iterList = l := by
  unfold SS.iterList SS.removeDeletesM
  by_cases hcond : s.order.length > s.size
  · simp only [if_pos hcond]
    exact inv_remove_deletes h
  · simp only [if_neg hcond]
    exact inv_clean_of_le h (by
      have := inv_card h
      simp only [SS.size] at hcond
      omega)

/-! ### Claim theorems: stable set -/

/-- Claim C1: for any sequence of add/remove/pop operations on a stable set (over
word-aligned, non-null object identities), iterating the set afterwards
yields exactly the live elements in the order they were most recently
inserted — an `add` of an element already present is a no-op, re-adding after
removal appends at the end, removed elements are excluded; in particular
`add a; add b; add c; remove b; add d` from the empty set iterates as
`[a, c, d]` (with a = 2, b = 4, c = 6, d = 8). -/
theorem stable_set_iteration_order :
    (∀ ops : List SOp, WFOps ops → (runOps ops).iterList = specRun ops)
    ∧ (runOps [SOp.add 2, SOp.add 4, SOp.add 6, SOp.remove 4, SOp.add 8]).iterList
        = [2, 6, 8] := by
  constructor
  · intro ops hwf
    exact inv_iterList (runOps_inv_aux ops inv_empty hwf)
  · decide

/-- Witness for C1 at the concrete operation sequence of the claim. -/
theorem stable_set_iteration_order_witness :
    WFOps [SOp.add 2, SOp.add 4, SOp.add 6, SOp.remove 4, SOp.add 8]
    ∧ (runOps [SOp.add 2, SOp.add 4, SOp.add 6, SOp.remove 4, SOp.add 8]).iterList
        = specRun [SOp.add 2, SOp.add 4, SOp.add 6, SOp.remove 4, SOp.add 8] :=
  ⟨by decide, stable_set_iteration_order.1 _ (by decide)⟩

/-- Claim C8, counterexample evidence: `StableSet_GetItem` on a one-element stable
set at index 1 (equal to the element count) does NOT raise the claimed value
error — the source's bounds check is `index > order.size()`, so `index ==
order.size()` slips through and the vector read is one past the end of the
log (undefined behaviour, modelled as the `none` entry). -/
theorem getitem_index_eq_size_not_value_error :
    StableSet_GetItem (runOps [SOp.add 2]) 1 = .entry none
    ∧ (runOps [SOp.add 2]).live.card = 1 := by
  decide

/-- Claim C9, counterexample: `remove(x)` on a stable set that does not contain
`x` — here the empty set — returns success (a none-value) instead of raising
the claimed not-found error: `py_remove` delegates to `discard` and treats
the "not present" status as success. -/
theorem remove_absent_returns_success :
    SS.py_remove SS.empty 2 = .ok SS.empty := by
  decide

/-- Claim C9 as amended: `remove(x)` on a stable set not containing `x` silently
succeeds, leaving the set unchanged (discard semantics — the not-found error
in the source is commented out); `pop()` on an empty stable set does raise a
not-found (key) error. -/
theorem remove_tolerant_and_pop_empty_raises :
    (∀ (s : SS) (l : List Nat) (x : Nat), Inv s l → x ∉ s.live →
      s.py_remove x = .ok s)
    ∧ (∀ (s : SS) (l : List Nat), Inv s l → s.live.card = 0 → s.pop = .keyError) := by
  constructor
  · intro s l x _ hx
    simp [SS.py_remove, SS.discard, hx]
  · intro s l hinv hcard
    apply pop_keyError hinv
    have := inv_card hinv
    exact List.length_eq_zero.mp (by omega)

/-- Witness for the amended C9 at a concrete state. -/
theorem remove_tolerant_and_pop_empty_raises_witness :
    (Inv SS.empty [] ∧ (2 : Nat) ∉ SS.empty.live ∧ SS.py_remove SS.empty 2 = .ok SS.empty)
    ∧ (Inv SS.empty [] ∧ SS.empty.live.card = 0 ∧ SS.empty.pop = .keyError) :=
  ⟨⟨inv_empty, by decide,
      remove_tolerant_and_pop_empty_raises.1 SS.empty [] 2 inv_empty (by decide)⟩,
    ⟨inv_empty, by decide,
      remove_tolerant_and_pop_empty_raises.2 SS.empty [] inv_empty (by decide)⟩⟩

/-! ### Claim theorems: stable frozenset `&` -/

/-- Claim C7, code-bug evidence: on stable frozensets a = b = {2}, the `&`
operator returns the empty stable frozenset rather than the intersection
{2}: the frozenset `&` slot delegates to the subtraction path (`set_sub`,
not `set_and`), and its `copy_to_mutable` helper produces an empty set (the
host set type's `tp_new` ignores the iterable argument and `tp_init` is
never run), so the result is always empty.  A foreign operand does signal
NotImplemented, as claimed. -/
theorem frozenset_and_always_empty :
    frozenset_and (.stable (mkStable [2])) (.stable (mkStable [2])) = .ok SS.empty
    ∧ (mkStable [2]).live ∩ (mkStable [2]).live = {2}
    ∧ frozenset_and (.stable (mkStable [2])) .foreign = .notImplemented := by
  refine ⟨?_, ?_, ?_⟩ <;> decide

/-! ### Claim theorems: BlockingCounter -/

lemma nextStep_served {c s r c' : Nat}
    (h : BlockingCounter_nextStep c s = .served r c') :
    c = s ∧ r = (c + 1) % 2 ^ 64 ∧ c' = (c + 1) % 2 ^ 64 := by
  unfold BlockingCounter_nextStep at h
  by_cases h1 : s < c
  · simp [h1] at h
  · by_cases h2 : c ≠ s
    · simp [h1, h2] at h
    · push_neg at h2
      subst h2
      simp [h1] at h
      exact ⟨rfl, h.1.symm, h.2.symm⟩

lemma serveTrace_range' {l : List Nat} {c c'' : Nat} (h : ServeTrace c l c'')
    (hlen : c + l.length ≤ 2 ^ 64) : l = List.range' c l.length := by
  induction h with
  | nil => simp
  | cons hstep htail ih =>
    rename_i c c' c''' r s rest
    obtain ⟨hcs, _, hc'⟩ := nextStep_served hstep
    subst hcs
    cases rest with
    | nil =>
      cases htail
      rfl
    | cons a rest' =>
      simp only [List.length_cons] at hlen
      have hlt : c + 1 < 2 ^ 64 := by omega
      have hc'' : c' = c + 1 := by
        rw [hc', Nat.mod_eq_of_lt hlt]
      subst hc''
      have hrec := ih (by simp only [List.length_cons]; omega)
      simp only [List.length_cons]
      rw [List.range'_succ, ← List.length_cons a rest', ← hrec]

/-- Claim C4: `BlockingCounter.next(seq)` with `seq` below the counter raises the
fatal trap (and so never produces a value — the `trap` outcome carries
none); a call completes (`served`) only when the counter has reached exactly
`seq`, incrementing it and waking all waiters; consequently, in any sequence
of completed calls starting from a fresh counter (without uint64 wraparound)
the n-th completed call is `next(n)` — every call returns only after all
smaller sequence numbers have been served. -/
theorem blocking_counter_strict_ordering :
    (∀ counter seq : Nat, BlockingCounter_nextStep counter seq = .trap ↔ seq < counter)
    ∧ (∀ counter seq r c', BlockingCounter_nextStep counter seq = .served r c' →
        counter = seq)
    ∧ (∀ (l : List Nat) (c' : Nat), ServeTrace 0 l c' → l.length ≤ 2 ^ 64 →
        l = List.range l.length) := by
  refine ⟨?_, ?_, ?_⟩
  · intro counter seq
    constructor
    · intro h
      by_contra hge
      unfold BlockingCounter_nextStep at h
      rw [if_neg hge] at h
      by_cases h2 : counter ≠ seq <;> simp [h2] at h
    · intro h
      simp [BlockingCounter_nextStep, h]
  · intro counter seq r c' h
    exact (nextStep_served h).1
  · intro l c' h hlen
    have := serveTrace_range' h (by simpa using hlen)
    rw [this, List.range'_eq_map_range]
    simp

/-- Witness for C4: the trap case at a concrete passed sequence number, and a
concrete three-call trace served in order 0, 1, 2. -/
theorem blocking_counter_strict_ordering_witness :
    BlockingCounter_nextStep 5 3 = NextOutcome.trap
    ∧ ([0, 1, 2] : List Nat) = List.range ([0, 1, 2] : List Nat).length :=
  ⟨(blocking_counter_strict_ordering.1 5 3).mpr (by decide),
   blocking_counter_strict_ordering.2.2 [0, 1, 2] 3
     (@ServeTrace.cons 0 1 3 1 0 [1, 2] (by decide)
       (@ServeTrace.cons 1 2 3 2 1 [2] (by decide)
         (@ServeTrace.cons 2 3 3 3 2 [] (by decide) (ServeTrace.nil 3))))
     (by decide)⟩

/-- Claim C10, counterexample: at seq = 2^64 - 1 (accepted: not below the
counter), the completed call returns 0 — the uint64 increment wraps — not
seq + 1 = 2^64, and the stored counter is 0 as well. -/
theorem blocking_counter_wraps_at_max :
    BlockingCounter_nextStep (2 ^ 64 - 1) (2 ^ 64 - 1) = .served 0 0
    ∧ (2 ^ 64 - 1) + 1 ≠ 0 := by
  refine ⟨?_, ?_⟩ <;> decide

/-- Claim C10 as amended: every completed `next(seq)` call returns `(seq + 1) mod
2^64` and leaves the counter at that same value. -/
theorem blocking_counter_next_returns_succ_mod :
    ∀ c s r c', BlockingCounter_nextStep c s = .served r c' →
      r = (s + 1) % 2 ^ 64 ∧ c' = (s + 1) % 2 ^ 64 := by
  intro c s r c' h
  obtain ⟨hcs, hr, hc'⟩ := nextStep_served h
  subst hcs
  exact ⟨hr, hc'⟩

/-- Witness for the amended C10 at counter = seq = 3. -/
theorem blocking_counter_next_returns_succ_mod_witness :
    BlockingCounter_nextStep 3 3 = .served 4 4
    ∧ ((4 : Nat) = (3 + 1) % 2 ^ 64 ∧ (4 : Nat) = (3 + 1) % 2 ^ 64) :=
  ⟨by decide, blocking_counter_next_returns_succ_mod 3 3 4 4 (by decide)⟩

/-! ### Claim theorems: Gate / BoundGate -/

/-- Claim C3: for a `Gate()` constructed with no default, a BoundGate call with
the gate disabled invokes the target directly with the original arguments;
after `gate.set(e)` on the same thread the same bound call invokes
`e(target, *args)`; after `gate.disable()` it is direct again (all through
the gate's per-thread dictionary and the global one-slot cache). -/
theorem gate_bound_call_resolution (t target e : Nat) (args : List Nat) :
    (BoundGate_call freshGate t target args).1 = .direct target args
    ∧ ((BoundGate_call
          (Gate_set_executor (BoundGate_call freshGate t target args).2 t (some e))
          t target args).1 = .viaExec e target args)
    ∧ ((BoundGate_call
          (Gate_set_executor
            (BoundGate_call
              (Gate_set_executor (BoundGate_call freshGate t target args).2 t (some e))
              t target args).2 t none)
          t target args).1 = .direct target args) := by
  refine ⟨?_, ?_, ?_⟩ <;>
    simp [BoundGate_call, Gate_executor, Gate_set_executor, load_cache, resolveDict,
      freshGate]

/-! ### Claim theorems: Demultiplexer -/

/-- Claim C5, counterexample: with another thread already registered as waiting
on key 7 and the cached lookahead item matching key 7, `get(7)` does not
raise the claimed value error — the fast path runs before the
already-pending check and consumes the item. -/
theorem demux_pending_key_fast_path_no_error :
    (demuxGet id (⟨[], some 7, [7], false⟩ : Demux) 7 false).1 = .item 7
    ∧ (7 : Nat) ∈ (⟨[], some 7, [7], false⟩ : Demux).pendingKeys := by
  refine ⟨?_, ?_⟩ <;> decide

/-- Claim C5 as amended: when the cached lookahead does not match `key`, a `key`
already registered as pending by another thread raises a value error; and
when the bounded wait times out, `get` returns `on_timeout(self, key)` if a
handler is configured and raises a runtime error otherwise. -/
theorem demux_pending_and_timeout (keyFn : Nat → Nat) (d d' : Demux) (key item : Nat)
    (hnext : ensureNext d = some d') (hitem : d'.next = some item)
    (hnomatch : keyFn item ≠ key) :
    (key ∈ d'.pendingKeys → ∀ w, (demuxGet keyFn d key w).1 = .valueError)
    ∧ (key ∉ d'.pendingKeys →
        (demuxGet keyFn d key false).1
          = if d'.hasOnTimeout then .timeoutHandler key else .runtimeError) := by
  constructor
  · intro hp w
    simp [demuxGet, hnext, hitem, hnomatch, hp]
  · intro hp
    cases hOT : d'.hasOnTimeout <;>
      simp [demuxGet, hnext, hitem, hnomatch, hp, hOT]

/-- Witness for the amended C5: a pending key with a non-matching lookahead
errors; a timed-out wait with a handler configured routes to the handler. -/
theorem demux_pending_and_timeout_witness :
    (demuxGet id (⟨[], some 5, [3], false⟩ : Demux) 3 true).1 = .valueError
    ∧ (demuxGet id (⟨[], some 5, [], true⟩ : Demux) 3 false).1 = .timeoutHandler 3 := by
  constructor
  · exact (demux_pending_and_timeout id (⟨[], some 5, [3], false⟩ : Demux)
      (⟨[], some 5, [3], false⟩ : Demux) 3 5 rfl rfl (by decide)).1 (by decide) true
  · have := (demux_pending_and_timeout id (⟨[], some 5, [], true⟩ : Demux)
      (⟨[], some 5, [], true⟩ : Demux) 3 5 rfl rfl (by decide)).2 (by decide)
    simpa using this

/-! ### Claim theorems: PatchHash -/

/-- Claim C6, counterexample: at counter value 14959274266131672512 the mixing
function produces the uint64 pattern 2^64 - 1, i.e. the reserved hash
sentinel -1, and the installed hash returns the fixed alternate 1 instead of
the mixing function's value — so "a Counter-family object yields the mixing
function applied to the counter's next sequence value", read literally, is
false at this input. -/
theorem hasher_counter_sentinel_remapped :
    Hasher_hash 0 .counterVal 14959274266131672512
        ≠ .ok (toSigned64 (spread64 14959274266131672512))
            ((14959274266131672512 + 1) % 2 ^ 64)
    ∧ Hasher_hash 0 .counterVal 14959274266131672512
        = .ok 1 ((14959274266131672512 + 1) % 2 ^ 64)
    ∧ toSigned64 (spread64 14959274266131672512) = -1 := by
  refine ⟨?_, ?_, ?_⟩ <;> decide

/-- Claim C6 as amended: the installed hash interprets the user hash function's
result as: a none-value → the object's identity hash; an (in-range) exact
integer → used directly with the reserved sentinel -1 remapped to the fixed
alternate 1; a Counter-family object → the splitmix64-style finalizer
applied to the counter's next sequence value, likewise with the sentinel -1
remapped to 1; any other type → type error.  Stated as agreement of the
code-side `Hasher_hash` with the spec-side `specHashInterp`. -/
theorem hasher_interpretation (idh : Int) (ret : HashRet) (c : Nat)
    (hin : ∀ n, ret = .intVal n → -(2 ^ 63 : Int) ≤ n ∧ n < 2 ^ 63) :
    Hasher_hash idh ret c = specHashInterp idh ret c := by
  cases ret with
  | noneVal => rfl
  | intVal n =>
    obtain ⟨h1, h2⟩ := hin n rfl
    have hconv : PyLong_AsLongLong n = n := by
      unfold PyLong_AsLongLong
      rw [if_neg (by omega)]
    simp [Hasher_hash, specHashInterp, hconv]
  | counterVal => rfl
  | otherVal => rfl

/-- Witness for the amended C6 at a concrete in-range integer result. -/
theorem hasher_interpretation_witness :
    Hasher_hash 0 (.intVal 5) 0 = specHashInterp 0 (.intVal 5) 0 :=
  hasher_interpretation 0 (.intVal 5) 0
    (by intro n h; injection h with h; subst h; constructor <;> decide)

lemma findCache_insert_ne (c : HCache) (k o : Nat) (v : Int) (h : k ≠ o) :
    findCache (insertCache c k v) o = findCache c o := by
  simp [insertCache, findCache, h]

lemma findCache_erase_ne (c : HCache) (k o : Nat) (h : k ≠ o) :
    findCache (eraseCache c k) o = findCache c o := by
  induction c with
  | nil => rfl
  | cons p rest ih =>
    obtain ⟨pk, pv⟩ := p
    by_cases hp : pk = k
    · have hpo : pk ≠ o := by rw [hp]; exact h
      rw [show eraseCache ((pk, pv) :: rest) k = eraseCache rest k by
        simp [eraseCache, List.filter_cons, hp]]
      rw [ih, show findCache ((pk, pv) :: rest) o = findCache rest o by
        simp [findCache, hpo]]
    · rw [show eraseCache ((pk, pv) :: rest) k = (pk, pv) :: eraseCache rest k by
        simp [eraseCache, List.filter_cons, hp]]
      by_cases hpo : pk = o
      · simp [findCache, hpo]
      · simp only [findCache, hpo, if_neg, if_false]
        exact ih

lemma findCache_erase_self (c : HCache) (k : Nat) :
    findCache (eraseCache c k) k = none := by
  induction c with
  | nil => rfl
  | cons p rest ih =>
    obtain ⟨pk, pv⟩ := p
    by_cases hp : pk = k
    · rw [show eraseCache ((pk, pv) :: rest) k = eraseCache rest k by
        simp [eraseCache, List.filter_cons, hp]]
      exact ih
    · rw [show eraseCache ((pk, pv) :: rest) k = (pk, pv) :: eraseCache rest k by
        simp [eraseCache, List.filter_cons, hp]]
      simp only [findCache, hp, if_neg, if_false]
      exact ih

lemma runH_cache_stable {σ : Type} (user : Nat → σ → Int × σ) (o : Nat) (h : Int) :
    ∀ (evs : List HEvent) (us : σ) (cache : HCache),
      findCache cache o = some h → HEvent.dealloc o ∉ evs →
      findCache (runH user evs us cache).1.2 o = some h
      ∧ ∀ p ∈ (runH user evs us cache).2, p.1 = o → p.2 = h := by
  intro evs
  induction evs with
  | nil =>
    intro us cache hc _
    exact ⟨hc, by simp [runH]⟩
  | cons ev evs ih =>
    intro us cache hc hnd
    cases ev with
    | hash o' =>
      have hnd' : HEvent.dealloc o ∉ evs := fun hmem => hnd (by simp [hmem])
      by_cases ho : o' = o
      · subst ho
        have hstep : patched_hashfunc user o' us cache = (h, us, cache) := by
          simp [patched_hashfunc, hc]
        obtain ⟨h1, h2⟩ := ih us cache hc hnd'
        refine ⟨by simpa [runH, hstep] using h1, ?_⟩
        intro p hp _
        rw [show runH user (HEvent.hash o' :: evs) us cache
            = ((runH user evs us cache).1, (o', h) :: (runH user evs us cache).2) by
          simp [runH, hstep]] at hp
        simp only [List.mem_cons] at hp
        rcases hp with hp | hp
        · rw [hp]
        · exact h2 p hp (by assumption)
      · rcases hstep : patched_hashfunc user o' us cache with ⟨h', us', cache'⟩
        have hc' : findCache cache' o = some h := by
          unfold patched_hashfunc at hstep
          rcases hfind : findCache cache o' with _ | h0 <;> rw [hfind] at hstep
          · rcases huser : user o' us with ⟨hu, usu⟩
            rw [huser] at hstep
            by_cases hne : hu ≠ -1
            · simp only [if_pos hne, Prod.mk.injEq] at hstep
              rw [← hstep.2.2, findCache_insert_ne cache o' o hu ho]
              exact hc
            · simp only [if_neg hne, Prod.mk.injEq] at hstep
              rw [← hstep.2.2]
              exact hc
          · simp only [Prod.mk.injEq] at hstep
            rw [← hstep.2.2]
            exact hc
        obtain ⟨h1, h2⟩ := ih us' cache' hc' hnd'
        refine ⟨by simpa [runH, hstep] using h1, ?_⟩
        intro p hp hpo
        rw [show runH user (HEvent.hash o' :: evs) us cache
            = ((runH user evs us' cache').1, (o', h') :: (runH user evs us' cache').2) by
          simp [runH, hstep]] at hp
        simp only [List.mem_cons] at hp
        rcases hp with hp | hp
        · rw [hp] at hpo
          simp only at hpo
          exact absurd hpo ho
        · exact h2 p hp hpo
    | dealloc o' =>
      have ho : o' ≠ o := fun heq => hnd (by simp [heq])
      have hnd' : HEvent.dealloc o ∉ evs := fun hmem => hnd (by simp [hmem])
      have hc' : findCache (patched_dealloc o' cache) o = some h := by
        rw [patched_dealloc, findCache_erase_ne cache o' o ho]
        exact hc
      obtain ⟨h1, h2⟩ := ih us (patched_dealloc o' cache) hc' hnd'
      exact ⟨by simpa [runH] using h1, by
        intro p hp hpo
        exact h2 p (by simpa [runH] using hp) hpo⟩

/-- Claim C2: once a hash of object `o` succeeds (the value is not the -1 error
sentinel), the value is cached: hashing `o` again returns exactly the cached
value without running the user hash function (the state, e.g. a backing
Counter, is untouched — so the value stays fixed even though the user
function would return something different now), the cache entry survives any
event sequence that never deallocates `o` (with every hash of `o` in it
returning the same value), and `patched_dealloc` removes the entry. -/
theorem patch_hash_cache_stable {σ : Type} (user : Nat → σ → Int × σ)
    (o : Nat) (us : σ) (cache : HCache) (h : Int) (us1 : σ) (cache1 : HCache)
    (hrun : patched_hashfunc user o us cache = (h, us1, cache1))
    (hne : h ≠ -1) :
    patched_hashfunc user o us1 cache1 = (h, us1, cache1)
    ∧ (∀ evs, HEvent.dealloc o ∉ evs →
        findCache (runH user evs us1 cache1).1.2 o = some h
        ∧ ∀ p ∈ (runH user evs us1 cache1).2, p.1 = o → p.2 = h)
    ∧ findCache (patched_dealloc o cache1) o = none := by
  have hcached : findCache cache1 o = some h := by
    unfold patched_hashfunc at hrun
    rcases hfind : findCache cache o with _ | h0 <;> rw [hfind] at hrun
    · rcases huser : user o us with ⟨hu, usu⟩
      rw [huser] at hrun
      by_cases hz : hu ≠ -1
      · simp only [if_pos hz, Prod.mk.injEq] at hrun
        rw [← hrun.2.2, ← hrun.1]
        simp [insertCache, findCache]
      · simp only [if_neg hz, Prod.mk.injEq] at hrun
        push_neg at hz
        exact absurd (hrun.1 ▸ hz) hne
    · simp only [Prod.mk.injEq] at hrun
      rw [← hrun.2.2, hfind, hrun.1]
  refine ⟨?_, ?_, ?_⟩
  · simp [patched_hashfunc, hcached]
  · intro evs hnd
    exact runH_cache_stable user o h evs us1 cache1 hcached hnd
  · rw [patched_dealloc, findCache_erase_self]

/-- Witness for C2 with the Counter-backed user hash function of the claim:
object 5 hashed at counter state 0 caches value 0; replaying
[hash 5, hash 7, hash 5] returns 0 for both later hashes of object 5; and the
patched deallocation drops the entry.  The counter-backed function itself
would return a different value if consulted again (6238072747940578789 at
state 1). -/
theorem patch_hash_cache_stable_witness :
    (patched_hashfunc counterUserHash 5 1 [(5, 0)] = (0, 1, [(5, 0)])
      ∧ (findCache (runH counterUserHash [HEvent.hash 5, HEvent.hash 7, HEvent.hash 5]
            1 [(5, 0)]).1.2 5 = some 0
        ∧ ∀ p ∈ (runH counterUserHash [HEvent.hash 5, HEvent.hash 7, HEvent.hash 5]
            1 [(5, 0)]).2, p.1 = 5 → p.2 = 0)
      ∧ findCache (patched_dealloc 5 [(5, 0)]) 5 = none)
    ∧ counterUserHash 5 1 ≠ (0, 1) := by
  have hmain := patch_hash_cache_stable counterUserHash 5 0 [] 0 1 [(5, 0)]
    (by decide) (by decide)
  exact ⟨⟨hmain.1, hmain.2.1 _ (by decide), hmain.2.2⟩, by decide⟩

end RetraceUtils
